import Mathlib

/-!
Verification development for `anlffr/spectral.py`.

The multitaper spectral estimators of the module are shallowly embedded:
sequences become `List`s, numpy arrays become nested lists or index
functions, `np.fft.rfft` becomes an explicit discrete Fourier sum over `ℂ`,
and the frequency bookkeeping of `_get_freq_vector` is carried out exactly
over `ℚ`.  External collaborators of the module (the DPSS taper provider
`dpss_windows`, the random phase / random pair draws of `np.random`, and
`scipy.linalg.eigh`) are modelled as explicit parameters or, for `eigh` on
the rank-1 Hermitian matrices actually passed to it, by a definition whose
correctness is itself proved below.
-/

namespace Spectral

/-- Boolean-mask indexing `arr[mask]` of numpy: keep the entries of the list
standing at the positions where the mask holds `true`.  This is the
`x[fInd]` operation used by every estimator of the module. -/
def maskFilter {α : Type} : List α → List Bool → List α
  | _, [] => []
  | [], _ :: _ => []
  | a :: l, b :: m => if b then a :: maskFilter l m else maskFilter l m

theorem maskFilter_nil {α : Type} (m : List Bool) : maskFilter ([] : List α) m = [] := by
  cases m <;> rfl

theorem maskFilter_sublist {α : Type} (l : List α) (m : List Bool) :
    List.Sublist (maskFilter l m) l := by
  induction l generalizing m with
  | nil => simp [maskFilter_nil]
  | cons a l ih =>
    cases m with
    | nil => exact List.nil_sublist _
    | cons b m =>
      by_cases hb : b = true
      · simpa [maskFilter, hb] using (ih m).cons₂ a
      · simp only [Bool.not_eq_true] at hb
        simpa [maskFilter, hb] using (ih m).cons a

theorem mem_of_mem_maskFilter {α : Type} {a : α} {l : List α} {m : List Bool}
    (h : a ∈ maskFilter l m) : a ∈ l :=
  (maskFilter_sublist l m).subset h

theorem maskFilter_map {α β : Type} (g : α → β) (l : List α) (m : List Bool) :
    maskFilter (l.map g) m = (maskFilter l m).map g := by
  induction l generalizing m with
  | nil => simp [maskFilter_nil]
  | cons a l ih =>
    cases m with
    | nil => rfl
    | cons b m =>
      by_cases hb : b = true <;> simp [maskFilter, hb, ih]

theorem maskFilter_self_map {α : Type} (p : α → Bool) (l : List α) :
    maskFilter l (l.map p) = l.filter p := by
  induction l with
  | nil => rfl
  | cons a l ih =>
    by_cases hp : p a = true <;> simp [maskFilter, hp, ih, List.filter_cons]

/-- Embedding of `np.fft.fftfreq(n, d)`: the list
`[0, 1, ..., (n-1)//2, -(n//2), ..., -1] / (d*n)`, written positionally. -/
def fftfreq (n : ℕ) (d : ℚ) : List ℚ :=
  (List.range n).map fun i =>
    (if i ≤ (n - 1) / 2 then (i : ℚ) else (i : ℚ) - (n : ℚ)) / (d * n)

/-- Number of retained non-negative bins, from `_get_freq_vector`
(`(nfft+1)/2` for odd `nfft`, `nfft/2 + 1` for even `nfft`). -/
def maxIdx (nfft : ℕ) : ℕ :=
  if nfft % 2 = 1 then (nfft + 1) / 2 else nfft / 2 + 1

theorem maxIdx_eq (nfft : ℕ) : maxIdx nfft = nfft / 2 + 1 := by
  unfold maxIdx
  rcases Nat.even_or_odd nfft with h | h
  · simp [Nat.even_iff.mp h]
  · have h1 := Nat.odd_iff.mp h
    rw [if_pos h1]
    omega

/-- Full non-negative frequency axis of `_get_freq_vector`:
`f = np.abs(np.fft.fftfreq(nfft, 1/Fs)[0:maxIdx])`. -/
def freqFullAxis (nfft : ℕ) (Fs : ℚ) : List ℚ :=
  ((fftfreq nfft (1 / Fs)).take (maxIdx nfft)).map fun v => |v|

/-- Passband mask over the full bin set:
`fInd = (f >= fpass[0]) & (f <= fpass[1])`. -/
def fIndList (nfft : ℕ) (Fs fLo fHi : ℚ) : List Bool :=
  (freqFullAxis nfft Fs).map fun v => decide (fLo ≤ v ∧ v ≤ fHi)

/-- Passband-masked frequency axis `f = f[fInd]` returned by every
estimator of the module. -/
def maskedFreqAxis (nfft : ℕ) (Fs fLo fHi : ℚ) : List ℚ :=
  maskFilter (freqFullAxis nfft Fs) (fIndList nfft Fs fLo fHi)

/-- Default transform size `int(2.0 ** ceil(np.log2(nTimePts)))` (next power
of two at or above the number of time points; faithful for `nTimePts ≥ 1`). -/
def nfftDefault (ntime : ℕ) : ℕ := 2 ^ Nat.clog 2 ntime

/-- Transform-size selection of `_get_freq_vector`: an explicit `nfft`
below the number of time points is rejected and replaced by the default. -/
def nfftOf (ntime : ℕ) : Option ℕ → ℕ
  | some m => if m < ntime then nfftDefault ntime else m
  | none => nfftDefault ntime

theorem fftfreq_length (n : ℕ) (d : ℚ) : (fftfreq n d).length = n := by
  simp [fftfreq]

theorem fftfreq_getD (n : ℕ) (d : ℚ) (i : ℕ) (hi : i < n) :
    (fftfreq n d).getD i 0 =
      (if i ≤ (n - 1) / 2 then (i : ℚ) else (i : ℚ) - (n : ℚ)) / (d * n) := by
  simp [fftfreq, List.getD_eq_getElem?_getD, List.getElem?_map, List.getElem?_range, hi]

/-- The full axis is exactly the arithmetic grid `k * Fs / nfft`,
`k = 0 .. nfft/2` (for even `nfft` the final bin is produced by folding the
negative entry `-Fs/2` with the absolute value). -/
theorem freqFullAxis_eq_grid (nfft : ℕ) (Fs : ℚ) (hn : 0 < nfft) (hFs : 0 < Fs) :
    freqFullAxis nfft Fs =
      (List.range (nfft / 2 + 1)).map (fun k : ℕ => (k : ℚ) * Fs / nfft) := by
  have hmax : maxIdx nfft ≤ nfft := by rw [maxIdx_eq]; omega
  have hstep : freqFullAxis nfft Fs =
      (List.range (maxIdx nfft)).map
        (fun i : ℕ =>
          |(if i ≤ (nfft - 1) / 2 then (i : ℚ) else (i : ℚ) - (nfft : ℚ)) / (1 / Fs * nfft)|) := by
    unfold freqFullAxis fftfreq
    rw [← List.map_take, List.take_range, Nat.min_eq_left hmax, List.map_map]
    rfl
  rw [hstep, maxIdx_eq]
  refine List.map_congr_left (fun i hi => ?_)
  rw [List.mem_range] at hi
  have hfs : (Fs : ℚ) ≠ 0 := ne_of_gt hFs
  have hnq : ((nfft : ℚ)) ≠ 0 := by positivity
  by_cases hcase : i ≤ (nfft - 1) / 2
  · rw [if_pos hcase, abs_of_nonneg (by positivity)]
    field_simp
  · rw [if_neg hcase]
    -- then nfft is even and i = nfft / 2, the folded Nyquist bin
    have heven : nfft % 2 = 0 := by
      rcases Nat.even_or_odd nfft with h | h
      · exact Nat.even_iff.mp h
      · have h1 := Nat.odd_iff.mp h
        exact absurd (by omega : i ≤ (nfft - 1) / 2) hcase
    have hieq : i = nfft / 2 := by omega
    subst hieq
    have hval : ((nfft / 2 : ℕ) : ℚ) - (nfft : ℚ) = -((nfft / 2 : ℕ) : ℚ) := by
      have hc : (nfft : ℚ) = 2 * ((nfft / 2 : ℕ) : ℚ) := by
        exact_mod_cast congrArg (fun m : ℕ => (m : ℚ)) (by omega : nfft = 2 * (nfft / 2))
      rw [hc]; ring
    rw [hval, abs_div, abs_neg, abs_of_nonneg (by positivity),
      abs_of_nonneg (by positivity)]
    field_simp

theorem freqFullAxis_length (nfft : ℕ) (Fs : ℚ) (hn : 0 < nfft) (hFs : 0 < Fs) :
    (freqFullAxis nfft Fs).length = nfft / 2 + 1 := by
  rw [freqFullAxis_eq_grid nfft Fs hn hFs]; simp

theorem freqFullAxis_pairwise (nfft : ℕ) (Fs : ℚ) (hn : 0 < nfft) (hFs : 0 < Fs) :
    (freqFullAxis nfft Fs).Pairwise (· < ·) := by
  rw [freqFullAxis_eq_grid nfft Fs hn hFs]
  refine List.Pairwise.map _ (fun a b hab => ?_) (List.pairwise_lt_range _)
  have hnq : (0 : ℚ) < (nfft : ℚ) := by exact_mod_cast hn
  rw [div_lt_div_iff₀ hnq hnq]
  have hab2 : (a : ℚ) < (b : ℚ) := by exact_mod_cast hab
  exact mul_lt_mul_of_pos_right (mul_lt_mul_of_pos_right hab2 hFs) hnq

/-- C7: for every transform size and sample rate, the full axis of
`_get_freq_vector` has exactly `nfft / 2 + 1` non-negative entries, for even
`nfft` the Nyquist bin is the absolute value of the (negative) symmetric
`fftfreq` entry at index `nfft / 2`, the passband mask keeps exactly the bins
with `fpass[0] ≤ f ≤ fpass[1]` inclusive, and the masked axis is a strictly
increasing subsequence of the full axis. -/
theorem freq_vector_contract (nfft : ℕ) (Fs fLo fHi : ℚ) (hn : 0 < nfft) (hFs : 0 < Fs) :
    (freqFullAxis nfft Fs).length = nfft / 2 + 1 ∧
    (∀ v ∈ freqFullAxis nfft Fs, 0 ≤ v) ∧
    (nfft % 2 = 0 → (fftfreq nfft (1 / Fs)).getD (nfft / 2) 0 < 0 ∧
      (freqFullAxis nfft Fs).getD (nfft / 2) 0 = |(fftfreq nfft (1 / Fs)).getD (nfft / 2) 0|) ∧
    maskedFreqAxis nfft Fs fLo fHi =
      (freqFullAxis nfft Fs).filter (fun v => decide (fLo ≤ v ∧ v ≤ fHi)) ∧
    (maskedFreqAxis nfft Fs fLo fHi).Pairwise (· < ·) ∧
    List.Sublist (maskedFreqAxis nfft Fs fLo fHi) (freqFullAxis nfft Fs) := by
  refine ⟨freqFullAxis_length nfft Fs hn hFs, ?_, ?_, ?_, ?_, maskFilter_sublist _ _⟩
  · intro v hv
    simp only [freqFullAxis, List.mem_map] at hv
    obtain ⟨w, _, rfl⟩ := hv
    exact abs_nonneg w
  · intro heven
    have hhalf : nfft / 2 < nfft := by omega
    have hval := fftfreq_getD nfft (1 / Fs) (nfft / 2) hhalf
    have hcase : ¬ nfft / 2 ≤ (nfft - 1) / 2 := by omega
    rw [if_neg hcase] at hval
    have hneg : (fftfreq nfft (1 / Fs)).getD (nfft / 2) 0 < 0 := by
      rw [hval]
      apply div_neg_of_neg_of_pos
      · have hc : ((nfft / 2 : ℕ) : ℚ) < (nfft : ℚ) := by exact_mod_cast hhalf
        linarith
      · positivity
    refine ⟨hneg, ?_⟩
    have hlen1 : nfft / 2 < (freqFullAxis nfft Fs).length := by
      rw [freqFullAxis_length nfft Fs hn hFs]; omega
    have hlen2 : nfft / 2 < (fftfreq nfft (1 / Fs)).length := by
      rw [fftfreq_length]; exact hhalf
    rw [List.getD_eq_getElem _ _ hlen1, List.getD_eq_getElem _ _ hlen2]
    simp [freqFullAxis, List.getElem_take]
  · exact maskFilter_self_map _ _
  · exact List.Pairwise.sublist (maskFilter_sublist _ _) (freqFullAxis_pairwise nfft Fs hn hFs)

/-- Witness for `freq_vector_contract` at `nfft = 4`, `Fs = 4`, passband `[1, 2]`. -/
theorem freq_vector_contract_witness :
    (freqFullAxis 4 4).length = 4 / 2 + 1 ∧
    (∀ v ∈ freqFullAxis 4 4, 0 ≤ v) ∧
    (4 % 2 = 0 → (fftfreq 4 (1 / 4)).getD (4 / 2) 0 < 0 ∧
      (freqFullAxis 4 4).getD (4 / 2) 0 = |(fftfreq 4 (1 / 4)).getD (4 / 2) 0|) ∧
    maskedFreqAxis 4 4 1 2 =
      (freqFullAxis 4 4).filter (fun v => decide ((1 : ℚ) ≤ v ∧ v ≤ 2)) ∧
    (maskedFreqAxis 4 4 1 2).Pairwise (· < ·) ∧
    List.Sublist (maskedFreqAxis 4 4 1 2) (freqFullAxis 4 4) :=
  freq_vector_contract 4 4 1 2 (by decide) (by norm_num)

/-! ## Numeric core

The estimators work over idealized real and complex scalars (`ℝ`, `ℂ`)
in place of floating point.  Division follows the Mathlib convention
`x / 0 = 0`; the behaviour of the running code at exact zero denominators
(where numpy produces NaN) is modelled separately for claim C9. -/

noncomputable section

/-- Trial-aggregating arithmetic mean `xw.mean(axis=trialdim)` of a complex
array with `n` trials, pointwise in the remaining indices. -/
def cmeanF (n : ℕ) (g : ℕ → ℂ) : ℂ := (∑ t ∈ Finset.range n, g t) / n

/-- Arithmetic mean over an index range for real values. -/
def rmeanF (n : ℕ) (g : ℕ → ℝ) : ℝ := (∑ t ∈ Finset.range n, g t) / n

/-- Arithmetic mean of a list of reals; `stack.mean(axis=0)` is applied
pointwise with this. -/
def rmeanL (l : List ℝ) : ℝ := l.sum / l.length

/-- Unit-magnitude normalization `xw / abs(xw)` used by the PLV-style
statistics (idealized: at `xw = 0` the Mathlib convention gives `0`). -/
def unitc (z : ℂ) : ℂ := z / ((Complex.abs z : ℝ) : ℂ)

/-- Embedding of `np.fft.rfft(v, n=nfft)` on a real vector: the first
`nfft/2 + 1` coefficients of the discrete Fourier transform at transform
size `nfft` (the input is truncated to `nfft` samples, and implicitly
zero-padded because absent samples contribute `0` to the sum). -/
def rfft (nfft : ℕ) (v : List ℝ) : List ℂ :=
  (List.range (nfft / 2 + 1)).map fun j : ℕ =>
    ∑ m ∈ Finset.range (min v.length nfft),
      ((v.getD m 0 : ℝ) : ℂ) *
        Complex.exp (-(2 * (Real.pi : ℂ) * Complex.I * (j : ℂ) * (m : ℂ)) / (nfft : ℂ))

/-- Tapered spectral coefficient `np.fft.rfft(tap * x, n=nfft)[j]` of one
trial's time series. -/
def coeffAt (nfft : ℕ) (tap xs : List ℝ) (j : ℕ) : ℂ :=
  (rfft nfft (List.zipWith (· * ·) tap xs)).getD j 0

/-- Per-taper/bin PLV statistic of `mtplv` (`itc == 0` branch):
`abs((xw/abs(xw)).mean(axis=trialdim))**2`. -/
def plvBinPLV (ntrials : ℕ) (coeff : ℕ → ℂ) : ℝ :=
  Complex.abs (cmeanF ntrials fun t => unitc (coeff t)) ^ 2

/-- Per-taper/bin ITC statistic of `mtplv` (`itc != 0` branch):
`abs(xw.mean(axis=trialdim))**2 / (abs(xw)**2).mean(axis=trialdim)`. -/
def plvBinITC (ntrials : ℕ) (coeff : ℕ → ℂ) : ℝ :=
  Complex.abs (cmeanF ntrials coeff) ^ 2 /
    rmeanF ntrials (fun t => Complex.abs (coeff t) ^ 2)

/-- One taper's full-bin PLV/ITC row for a single channel, from the 2-D
(trials x time) branch of `mtplv`. -/
def mtplv2Tap (itc : Bool) (nfft : ℕ) (tap : List ℝ) (x2 : List (List ℝ)) : List ℝ :=
  (List.range (nfft / 2 + 1)).map fun j =>
    if itc then plvBinITC x2.length (fun t => coeffAt nfft tap (x2.getD t []) j)
    else plvBinPLV x2.length (fun t => coeffAt nfft tap (x2.getD t []) j)

/-- One taper's full-bin (channel x frequency) array `plvtap[k, :, :]` from
the 3-D branch of `mtplv`; the trial mean acts within each channel. -/
def mtplv3Tap (itc : Bool) (nfft : ℕ) (tap : List ℝ) (x3 : List (List (List ℝ))) :
    List (List ℝ) :=
  x3.map fun ch => mtplv2Tap itc nfft tap ch

/-- Pointwise mean over the taper axis, `stack.mean(axis=0)` for a stack of
rows of `nbins` bins. -/
def axisMean0 (nbins : ℕ) (stack : List (List ℝ)) : List ℝ :=
  (List.range nbins).map fun j => rmeanL (stack.map fun row => row.getD j 0)

/-- Pointwise mean over the taper axis for a stack of (channel x bin)
arrays. -/
def axisMean0Mat (nch nbins : ℕ) (stack : List (List (List ℝ))) : List (List ℝ) :=
  (List.range nch).map fun c => axisMean0 nbins (stack.map fun arr => arr.getD c [])

/-- Configuration record: the parameter fields consumed by the estimators
(`Fs`, `fpass`, `itc`, optional explicit `nfft`).  The taper set of
`dpss_windows` and the random draws are external collaborators, passed to the
estimators as explicit arguments. -/
structure Params where
  Fs : ℚ
  fLo : ℚ
  fHi : ℚ
  itc : Bool
  nfftOpt : Option ℕ

/-- Embedding of the 3-D (channel x trial x time) branch of `mtplv`:
per taper, tapered transform and a trial-aggregated PLV/ITC statistic per
channel at every full-resolution bin; average over tapers; passband mask at
the very end; returned with the masked frequency axis. -/
def mtplv3 (p : Params) (w : List (List ℝ)) (x3 : List (List (List ℝ))) :
    List (List ℝ) × List ℚ :=
  let ntime := ((x3.headD []).headD []).length
  let nfft := nfftOf ntime p.nfftOpt
  let fInd := fIndList nfft p.Fs p.fLo p.fHi
  let stack := w.map fun tap => mtplv3Tap p.itc nfft tap x3
  let avg := axisMean0Mat x3.length (nfft / 2 + 1) stack
  (avg.map fun row => maskFilter row fInd, maskedFreqAxis nfft p.Fs p.fLo p.fHi)

/-- Embedding of the 2-D (trials x time) branch of `mtplv`. -/
def mtplv2 (p : Params) (w : List (List ℝ)) (x2 : List (List ℝ)) : List ℝ × List ℚ :=
  let ntime := (x2.headD []).length
  let nfft := nfftOf ntime p.nfftOpt
  let fInd := fIndList nfft p.Fs p.fLo p.fHi
  let stack := w.map fun tap => mtplv2Tap p.itc nfft tap x2
  (maskFilter (axisMean0 (nfft / 2 + 1) stack) fInd, maskedFreqAxis nfft p.Fs p.fLo p.fHi)

/-- One taper's full-bin spectrum row of `mtspec` (2-D branch):
`S[k, :, :] = abs(xw.mean(axis=trialdim))`, the magnitude of the coherent
trial mean. -/
def mtspec2STap (nfft : ℕ) (tap : List ℝ) (x2 : List (List ℝ)) : List ℝ :=
  (List.range (nfft / 2 + 1)).map fun j =>
    Complex.abs (cmeanF x2.length fun t => coeffAt nfft tap (x2.getD t []) j)

/-- One taper's full-bin noise-floor row of `mtspec` (2-D branch):
`N[k, :, :] = abs((xw * exp(1j*randph)).mean(axis=trialdim))` where `randph`
is the external random phase draw (per trial and bin). -/
def mtspec2NTap (nfft : ℕ) (tap : List ℝ) (ph : ℕ → ℕ → ℝ) (x2 : List (List ℝ)) : List ℝ :=
  (List.range (nfft / 2 + 1)).map fun j =>
    Complex.abs (cmeanF x2.length fun t =>
      coeffAt nfft tap (x2.getD t []) j * Complex.exp (Complex.I * ((ph t j : ℝ) : ℂ)))

/-- Embedding of the 2-D branch of `mtspec`: per-taper `S` and `N` rows over
the full bin set, averaged over tapers, then passband-masked; returns
`(S, N, f)`.  The random phases `ph` are indexed taper/trial/bin. -/
def mtspec2 (p : Params) (w : List (List ℝ)) (ph : ℕ → ℕ → ℕ → ℝ)
    (x2 : List (List ℝ)) : List ℝ × List ℝ × List ℚ :=
  let ntime := (x2.headD []).length
  let nfft := nfftOf ntime p.nfftOpt
  let fInd := fIndList nfft p.Fs p.fLo p.fHi
  let sStack := w.map fun tap => mtspec2STap nfft tap x2
  let nStack := (List.range w.length).map fun k => mtspec2NTap nfft (w.getD k []) (ph k) x2
  (maskFilter (axisMean0 (nfft / 2 + 1) sStack) fInd,
    maskFilter (axisMean0 (nfft / 2 + 1) nStack) fInd,
    maskedFreqAxis nfft p.Fs p.fLo p.fHi)

/-- Modelled from the spec (the wording of claim C2): a per-taper spectrum
row computed as `S = mean over trials of abs(x)`, to be compared with the
implementation's `mtspec2STap` above. -/
def mtspec2STapSpecVersion (nfft : ℕ) (tap : List ℝ) (x2 : List (List ℝ)) : List ℝ :=
  (List.range (nfft / 2 + 1)).map fun j =>
    rmeanF x2.length fun t => Complex.abs (coeffAt nfft tap (x2.getD t []) j)

/-- Modelled from the spec (the wording of claim C2): the full `S` pipeline
with the claimed per-taper statistic, taper-averaged and masked. -/
def mtspec2SSpecVersion (p : Params) (w : List (List ℝ)) (x2 : List (List ℝ)) : List ℝ :=
  let ntime := (x2.headD []).length
  let nfft := nfftOf ntime p.nfftOpt
  let fInd := fIndList nfft p.Fs p.fLo p.fHi
  let sStack := w.map fun tap => mtspec2STapSpecVersion nfft tap x2
  maskFilter (axisMean0 (nfft / 2 + 1) sStack) fInd

/-! ### cPCA machinery (`mtcpca`, `mtcspec`, `mtcpca_all`) -/

/-- Cross-spectral density matrix `Csd = np.outer(v, v.conj())` built by the
cPCA estimators from the per-channel statistic vector at one frequency bin. -/
def csdMatrix {n : ℕ} (v : Fin n → ℂ) : Matrix (Fin n) (Fin n) ℂ :=
  Matrix.of fun i j => v i * (starRingEnd ℂ) (v j)

/-- Modelled from the documented behaviour of `scipy.linalg.eigh` on the
rank-1 Hermitian matrices `csdMatrix v` this module passes to it: the top
(`vals[-1]`, eigenvalues ascending) eigenvalue, which is `∑ normSq (v c)`.
The theorem `csd_rank1_eigen_contract` below proves that every eigenvalue of
`csdMatrix v` is `0` or this value, so it is the largest one. -/
def eighTopValRank1 (nch : ℕ) (v : ℕ → ℂ) : ℝ :=
  ∑ c ∈ Finset.range nch, Complex.normSq (v c)

/-- Modelled from the documented behaviour of `scipy.linalg.eigh` (LAPACK
eigenvectors have unit Euclidean norm): the eigenvector paired with the top
eigenvalue of `csdMatrix v`, which is `v` rescaled to unit norm.  The LAPACK
phase/sign convention is immaterial to the claims below (they are stable
under unit-modulus rescaling). -/
def eighTopVecRank1 (nch : ℕ) (v : ℕ → ℂ) : ℕ → ℂ :=
  fun c => v c / ((Real.sqrt (eighTopValRank1 nch v) : ℝ) : ℂ)

/-- Per-channel complex statistic `C` of `mtcpca` at one bin: ITC-style
(`xw.mean(axis=trialdim) / abs(xw).mean(axis=trialdim)`) or PLV-style
(`(xw / abs(xw)).mean(axis=trialdim)`). -/
def mtcpcaC (itc : Bool) (ntrials : ℕ) (coeff : ℕ → ℂ) : ℂ :=
  if itc then cmeanF ntrials coeff / ((rmeanF ntrials fun t => Complex.abs (coeff t) : ℝ) : ℂ)
  else cmeanF ntrials fun t => unitc (coeff t)

/-- One taper's full-bin row `plv[k, :]` of `mtcpca`: per bin, the channel
statistic vector, its rank-1 CSD, the top `eigh` eigenvalue `vals[-1]`,
divided by the channel count. -/
def mtcpcaTap (itc : Bool) (nfft : ℕ) (tap : List ℝ) (x3 : List (List (List ℝ))) : List ℝ :=
  (List.range (nfft / 2 + 1)).map fun j =>
    eighTopValRank1 x3.length
      (fun c => mtcpcaC itc (x3.getD c []).length
        (fun t => coeffAt nfft tap ((x3.getD c []).getD t []) j)) / (x3.length : ℝ)

/-- Embedding of `mtcpca` (3-D branch): per-taper rows over the full bin
set, averaged over tapers, passband mask at the very end. -/
def mtcpca3 (p : Params) (w : List (List ℝ)) (x3 : List (List (List ℝ))) :
    List ℝ × List ℚ :=
  let ntime := ((x3.headD []).headD []).length
  let nfft := nfftOf ntime p.nfftOpt
  let fInd := fIndList nfft p.Fs p.fLo p.fHi
  let stack := w.map fun tap => mtcpcaTap p.itc nfft tap x3
  (maskFilter (axisMean0 (nfft / 2 + 1) stack) fInd, maskedFreqAxis nfft p.Fs p.fLo p.fHi)

/-- One taper's full-bin row of `mtcspec`: like `mtcpcaTap` with the plain
coherent trial mean `C = xw.mean(axis=trialdim)` as the channel statistic. -/
def mtcspecTap (nfft : ℕ) (tap : List ℝ) (x3 : List (List (List ℝ))) : List ℝ :=
  (List.range (nfft / 2 + 1)).map fun j =>
    eighTopValRank1 x3.length
      (fun c => cmeanF (x3.getD c []).length
        (fun t => coeffAt nfft tap ((x3.getD c []).getD t []) j)) / (x3.length : ℝ)

/-- Embedding of `mtcspec` (3-D branch): full-resolution per-taper rows,
taper average, passband mask at the very end. -/
def mtcspec3 (p : Params) (w : List (List ℝ)) (x3 : List (List (List ℝ))) :
    List ℝ × List ℚ :=
  let ntime := ((x3.headD []).headD []).length
  let nfft := nfftOf ntime p.nfftOpt
  let fInd := fIndList nfft p.Fs p.fLo p.fHi
  let stack := w.map fun tap => mtcspecTap nfft tap x3
  (maskFilter (axisMean0 (nfft / 2 + 1) stack) fInd, maskedFreqAxis nfft p.Fs p.fLo p.fHi)

/-! ### `mtphase`: the passband mask is applied to the per-taper array
before the taper average (`Ph = Ph[:, :, fInd].mean(axis=0)`, line 355) -/

/-- One taper's full-bin phase row for one channel:
`Ph[k, c, :] = np.angle(xw.mean(axis=trialdim))`. -/
def mtphaseTapRow (nfft : ℕ) (tap : List ℝ) (ch : List (List ℝ)) : List ℝ :=
  (List.range (nfft / 2 + 1)).map fun j =>
    Complex.arg (cmeanF ch.length fun t => coeffAt nfft tap (ch.getD t []) j)

/-- Embedding of the 3-D branch of `mtphase`, masking each per-taper array
first and averaging over tapers afterwards, exactly as the source does. -/
def mtphase3 (p : Params) (w : List (List ℝ)) (x3 : List (List (List ℝ))) :
    List (List ℝ) × List ℚ :=
  let ntime := ((x3.headD []).headD []).length
  let nfft := nfftOf ntime p.nfftOpt
  let fInd := fIndList nfft p.Fs p.fLo p.fHi
  let nMasked := (maskFilter (List.range (nfft / 2 + 1)) fInd).length
  let maskedStack := w.map fun tap =>
    x3.map fun ch => maskFilter (mtphaseTapRow nfft tap ch) fInd
  (axisMean0Mat x3.length nMasked maskedStack, maskedFreqAxis nfft p.Fs p.fLo p.fHi)

/-! ### `mtcpca_all`: the passband mask is applied to the raw transform,
`xw = xw[:, :, fInd]` (line 1088), before any trial aggregation.  The
component selection is the default `pc = [-1]` (dominant eigenpair). -/

/-- The trial-aggregated channel statistic `C = xw.mean(axis=trialdim)` of
`mtcpca_all` for one taper: one row per channel, one entry per bin retained
by the passband mask, computed from the masked transform. -/
def mtcpcaAllC (nfft : ℕ) (fInd : List Bool) (tap : List ℝ)
    (x3 : List (List (List ℝ))) : List (List ℂ) :=
  x3.map fun ch =>
    (List.range (maskFilter (List.range (nfft / 2 + 1)) fInd).length).map fun fi =>
      cmeanF ch.length fun t =>
        (maskFilter (rfft nfft (List.zipWith (· * ·) tap (ch.getD t []))) fInd).getD fi 0

/-- One taper's spectrum row `cspec[k, 0, :]` of `mtcpca_all` (already on
the masked bin set). -/
def mtcpcaAllSpectrumTap (nfft : ℕ) (fInd : List Bool) (tap : List ℝ)
    (x3 : List (List (List ℝ))) : List ℝ :=
  (List.range (maskFilter (List.range (nfft / 2 + 1)) fInd).length).map fun fi =>
    eighTopValRank1 x3.length
      (fun c => ((mtcpcaAllC nfft fInd tap x3).getD c []).getD fi 0) / (x3.length : ℝ)

/-- The taper-averaged spectrum output `out['spectrum']` of `mtcpca_all`
(dominant component). -/
def mtcpcaAllSpectrum (p : Params) (w : List (List ℝ)) (x3 : List (List (List ℝ))) :
    List ℝ :=
  let ntime := ((x3.headD []).headD []).length
  let nfft := nfftOf ntime p.nfftOpt
  let fInd := fIndList nfft p.Fs p.fLo p.fHi
  let nMasked := (maskFilter (List.range (nfft / 2 + 1)) fInd).length
  axisMean0 nMasked (w.map fun tap => mtcpcaAllSpectrumTap nfft fInd tap x3)

/-- Eigenvector slot stored by `mtcpca_all` for the dominant component at
one bin: the raw `eigh` eigenvector column is stored unchanged,
`cspecV[k, :, :, fi] = powEigenvec[:, pc].T` (lines 1111-1113). -/
def mtcpcaAllStoredVec (nch : ℕ) (v : ℕ → ℂ) : ℕ → ℂ :=
  eighTopVecRank1 nch v

/-- Weight vector of the reconstruction path of `mtcpca_timeDomain`
(line 634): the dominant eigenvector divided by the sum of the absolute
values of its entries, `cwts = vecs[:, -1] / np.abs(vecs[:, -1]).sum()`. -/
def timeDomainCwts (nch : ℕ) (v : ℕ → ℂ) : ℕ → ℂ :=
  fun c => eighTopVecRank1 nch v c /
    ((∑ i ∈ Finset.range nch, Complex.abs (eighTopVecRank1 nch v i) : ℝ) : ℂ)

/-- Modelled from the spec (the wording of claim C3): a vector divided by
the plain sum of its entries, the normalization the spec asserts for the
eigenvectors returned by `mtcpca_all`. -/
def sumEntriesNormalized (nch : ℕ) (v : ℕ → ℂ) : ℕ → ℂ :=
  fun c => v c / (∑ i ∈ Finset.range nch, v i)

/-! ### Rank dispatch: `x.squeeze()` then branching on `len(x.shape)` -/

/-- Result of numpy `squeeze` on a 3-D nested array. -/
inductive NpSqueezed where
  | d0 : ℝ → NpSqueezed
  | d1 : List ℝ → NpSqueezed
  | d2 : List (List ℝ) → NpSqueezed
  | d3 : List (List (List ℝ)) → NpSqueezed

/-- Embedding of `x.squeeze()` on a (channel, trial, time) nested array:
every axis of length 1 is removed. -/
def squeeze3 (x : List (List (List ℝ))) : NpSqueezed :=
  if x.length = 1 then
    if (x.headD []).length = 1 then
      if ((x.headD []).headD []).length = 1 then .d0 (((x.headD []).headD []).headD 0)
      else .d1 ((x.headD []).headD [])
    else
      if ((x.headD []).headD []).length = 1 then .d1 ((x.headD []).map fun r => r.headD 0)
      else .d2 (x.headD [])
  else
    if (x.headD []).length = 1 then
      if ((x.headD []).headD []).length = 1 then .d1 (x.map fun ch => (ch.headD []).headD 0)
      else .d2 (x.map fun ch => ch.headD [])
    else
      if ((x.headD []).headD []).length = 1 then .d2 (x.map fun ch => ch.map fun r => r.headD 0)
      else .d3 x

/-- Result of a public estimator call: a 1-D or 2-D statistic with the
masked frequency axis, or the fatal shape error of the dispatch.  Modelled
from the spec for the collaborator `utils.logger` missing from the staged
sources: a shape mismatch aborts the call (spec section 7, ShapeError is
detected before any transform work and fatal for that call; in the running
code the branch leaves the axis variables unbound, so no value is ever
produced either). -/
inductive MtOut where
  | arr1 : List ℝ → List ℚ → MtOut
  | arr2 : List (List ℝ) → List ℚ → MtOut
  | shapeErr : MtOut

/-- Full `mtplv` with its rank dispatch: squeeze, then the 3-D or 2-D
branch, else the shape error. -/
def mtplvFull (p : Params) (w : List (List ℝ)) (x : List (List (List ℝ))) : MtOut :=
  match squeeze3 x with
  | .d3 v => .arr2 (mtplv3 p w v).1 (mtplv3 p w v).2
  | .d2 v => .arr1 (mtplv2 p w v).1 (mtplv2 p w v).2
  | _ => .shapeErr

/-- Full `mtcpca` with its rank dispatch: squeeze, then only the 3-D branch
is accepted. -/
def mtcpcaFull (p : Params) (w : List (List ℝ)) (x : List (List (List ℝ))) : MtOut :=
  match squeeze3 x with
  | .d3 v => .arr1 (mtcpca3 p w v).1 (mtcpca3 p w v).2
  | _ => .shapeErr

end

/-! ## Elementary bounds for the PLV-style statistics -/

theorem getD_range_map {α : Type} (n : ℕ) (f : ℕ → α) (d : α) (j : ℕ) :
    ((List.range n).map f).getD j d = if j < n then f j else d := by
  by_cases hj : j < n
  · have hlen : j < ((List.range n).map f).length := by simpa using hj
    rw [List.getD_eq_getElem _ _ hlen, if_pos hj]
    simp
  · rw [if_neg hj]
    exact List.getD_eq_default _ _ (by simpa using Nat.le_of_not_lt hj)

theorem rmeanL_mem_unit (l : List ℝ) (h : ∀ v ∈ l, 0 ≤ v ∧ v ≤ 1) :
    0 ≤ rmeanL l ∧ rmeanL l ≤ 1 := by
  rcases List.eq_nil_or_concat l with rfl | _
  · constructor <;> simp [rmeanL]
  · have hs0 : 0 ≤ l.sum := List.sum_nonneg (fun v hv => (h v hv).1)
    have hs1 : l.sum ≤ (l.length : ℝ) := by
      have := List.sum_le_card_nsmul l 1 (fun v hv => (h v hv).2)
      simpa using this
    constructor
    · exact div_nonneg hs0 (by positivity)
    · rcases Nat.eq_zero_or_pos l.length with hl | hl
      · simp [rmeanL, hl]
      · have hlpos : (0 : ℝ) < (l.length : ℝ) := by exact_mod_cast hl
        rw [rmeanL, div_le_one hlpos]
        exact hs1

theorem abs_unitc_le_one (z : ℂ) : Complex.abs (unitc z) ≤ 1 := by
  by_cases hz : z = 0
  · simp [unitc, hz]
  · have habs : Complex.abs z ≠ 0 := by
      simpa using hz
    rw [unitc, map_div₀, Complex.abs_ofReal, abs_of_nonneg (Complex.abs.nonneg z),
      div_self habs]

theorem abs_cmeanF_le_one (n : ℕ) (g : ℕ → ℂ) (h : ∀ t, Complex.abs (g t) ≤ 1) :
    Complex.abs (cmeanF n g) ≤ 1 := by
  rcases Nat.eq_zero_or_pos n with hn | hn
  · subst hn; simp [cmeanF]
  · have h1 : Complex.abs (∑ t ∈ Finset.range n, g t) ≤ (n : ℝ) :=
      calc Complex.abs (∑ t ∈ Finset.range n, g t)
          ≤ ∑ t ∈ Finset.range n, Complex.abs (g t) := Complex.abs.sum_le _ _
        _ ≤ ∑ _t ∈ Finset.range n, (1 : ℝ) := Finset.sum_le_sum (fun t _ => h t)
        _ = (n : ℝ) := by simp
    rw [cmeanF, map_div₀, Complex.abs_natCast]
    exact div_le_one_of_le₀ h1 (by positivity)

theorem plvBinPLV_mem_unit (n : ℕ) (coeff : ℕ → ℂ) :
    0 ≤ plvBinPLV n coeff ∧ plvBinPLV n coeff ≤ 1 := by
  have hle : Complex.abs (cmeanF n fun t => unitc (coeff t)) ≤ 1 :=
    abs_cmeanF_le_one n _ (fun t => abs_unitc_le_one (coeff t))
  refine ⟨?_, pow_le_one₀ (Complex.abs.nonneg _) hle⟩
  rw [plvBinPLV]; positivity

theorem plvBinITC_mem_unit (n : ℕ) (coeff : ℕ → ℂ) :
    0 ≤ plvBinITC n coeff ∧ plvBinITC n coeff ≤ 1 := by
  have hdenom0 : 0 ≤ rmeanF n (fun t => Complex.abs (coeff t) ^ 2) := by
    apply div_nonneg _ (by positivity)
    exact Finset.sum_nonneg (fun t _ => by positivity)
  refine ⟨div_nonneg (by positivity) hdenom0, ?_⟩
  rcases Nat.eq_zero_or_pos n with hn | hn
  · subst hn; simp [plvBinITC, cmeanF]
  · have hnum : Complex.abs (cmeanF n coeff) ^ 2 ≤
        rmeanF n (fun t => Complex.abs (coeff t) ^ 2) := by
      have hcs : (∑ t ∈ Finset.range n, Complex.abs (coeff t)) ^ 2 ≤
          (∑ t ∈ Finset.range n, Complex.abs (coeff t) ^ 2) * n := by
        have h := Finset.sum_mul_sq_le_sq_mul_sq (Finset.range n)
          (fun t => Complex.abs (coeff t)) (fun _ => (1 : ℝ))
        simpa using h
      have habs : Complex.abs (∑ t ∈ Finset.range n, coeff t) ≤
          ∑ t ∈ Finset.range n, Complex.abs (coeff t) := Complex.abs.sum_le _ _
      have hnpos : (0 : ℝ) < (n : ℝ) := by exact_mod_cast hn
      rw [cmeanF, map_div₀, Complex.abs_natCast, rmeanF, div_pow]
      rw [div_le_div_iff₀ (by positivity) hnpos]
      calc Complex.abs (∑ t ∈ Finset.range n, coeff t) ^ 2 * (n : ℝ)
          ≤ (∑ t ∈ Finset.range n, Complex.abs (coeff t)) ^ 2 * (n : ℝ) := by
            apply mul_le_mul_of_nonneg_right _ (le_of_lt hnpos)
            exact pow_le_pow_left₀ (Complex.abs.nonneg _) habs 2
        _ ≤ (∑ t ∈ Finset.range n, Complex.abs (coeff t) ^ 2) * (n : ℝ) * (n : ℝ) := by
            apply mul_le_mul_of_nonneg_right hcs (le_of_lt hnpos)
        _ = (∑ t ∈ Finset.range n, Complex.abs (coeff t) ^ 2) * ((n : ℝ) ^ 2) := by ring
    by_cases hd : rmeanF n (fun t => Complex.abs (coeff t) ^ 2) = 0
    · rw [plvBinITC, hd, div_zero]; norm_num
    · have hdpos : 0 < rmeanF n (fun t => Complex.abs (coeff t) ^ 2) :=
        lt_of_le_of_ne hdenom0 (Ne.symm hd)
      rw [plvBinITC, div_le_one hdpos]
      exact hnum

theorem mtplv2Tap_getD_mem_unit (itc : Bool) (nfft : ℕ) (tap : List ℝ)
    (x2 : List (List ℝ)) (j : ℕ) :
    0 ≤ (mtplv2Tap itc nfft tap x2).getD j 0 ∧ (mtplv2Tap itc nfft tap x2).getD j 0 ≤ 1 := by
  rw [mtplv2Tap, getD_range_map]
  by_cases hj : j < nfft / 2 + 1
  · rw [if_pos hj]
    cases itc
    · simpa using plvBinPLV_mem_unit x2.length (fun t => coeffAt nfft tap (x2.getD t []) j)
    · simpa using plvBinITC_mem_unit x2.length (fun t => coeffAt nfft tap (x2.getD t []) j)
  · rw [if_neg hj]; norm_num

theorem getD_map_cases {α β : Type} (g : α → β) (l : List α) (c : ℕ) (d : β) :
    (l.map g).getD c d = if h : c < l.length then g (l.get ⟨c, h⟩) else d := by
  by_cases h : c < l.length
  · rw [dif_pos h, List.getD_eq_getElem _ _ (by simpa using h)]
    simp
  · rw [dif_neg h]
    exact List.getD_eq_default _ _ (by simpa using Nat.le_of_not_lt h)

theorem abs_cmeanF_le_rmeanF_abs (n : ℕ) (g : ℕ → ℂ) :
    Complex.abs (cmeanF n g) ≤ rmeanF n (fun t => Complex.abs (g t)) := by
  rw [cmeanF, rmeanF, map_div₀, Complex.abs_natCast]
  rcases Nat.eq_zero_or_pos n with hn | hn
  · subst hn; simp
  · have hnpos : (0 : ℝ) < (n : ℝ) := by exact_mod_cast hn
    rw [div_le_div_iff₀ hnpos hnpos]
    exact mul_le_mul_of_nonneg_right (Complex.abs.sum_le _ _) (le_of_lt hnpos)

theorem abs_mtcpcaC_le_one (itc : Bool) (n : ℕ) (coeff : ℕ → ℂ) :
    Complex.abs (mtcpcaC itc n coeff) ≤ 1 := by
  cases itc
  · simpa [mtcpcaC] using abs_cmeanF_le_one n _ (fun t => abs_unitc_le_one (coeff t))
  · have hrnn : 0 ≤ rmeanF n (fun t => Complex.abs (coeff t)) := by
      rw [rmeanF]
      apply div_nonneg _ (by positivity)
      exact Finset.sum_nonneg (fun t _ => Complex.abs.nonneg _)
    by_cases hr0 : rmeanF n (fun t => Complex.abs (coeff t)) = 0
    · simp [mtcpcaC, hr0]
    · have hrpos : 0 < rmeanF n (fun t => Complex.abs (coeff t)) :=
        lt_of_le_of_ne hrnn (Ne.symm hr0)
      have : Complex.abs (mtcpcaC true n coeff) =
          Complex.abs (cmeanF n coeff) / rmeanF n (fun t => Complex.abs (coeff t)) := by
        rw [mtcpcaC, if_pos rfl, map_div₀, Complex.abs_ofReal, abs_of_nonneg hrnn]
      rw [this, div_le_one hrpos]
      exact abs_cmeanF_le_rmeanF_abs n coeff

theorem mtcpcaTap_getD_mem_unit (itc : Bool) (nfft : ℕ) (tap : List ℝ)
    (x3 : List (List (List ℝ))) (j : ℕ) :
    0 ≤ (mtcpcaTap itc nfft tap x3).getD j 0 ∧ (mtcpcaTap itc nfft tap x3).getD j 0 ≤ 1 := by
  rw [mtcpcaTap, getD_range_map]
  by_cases hj : j < nfft / 2 + 1
  · rw [if_pos hj]
    have hnn : 0 ≤ eighTopValRank1 x3.length
        (fun c => mtcpcaC itc (x3.getD c []).length
          (fun t => coeffAt nfft tap ((x3.getD c []).getD t []) j)) :=
      Finset.sum_nonneg (fun c _ => Complex.normSq_nonneg _)
    refine ⟨div_nonneg hnn (Nat.cast_nonneg _), ?_⟩
    rcases Nat.eq_zero_or_pos x3.length with hx | hx
    · simp [eighTopValRank1, hx]
    · have hle : eighTopValRank1 x3.length
          (fun c => mtcpcaC itc (x3.getD c []).length
            (fun t => coeffAt nfft tap ((x3.getD c []).getD t []) j)) ≤ (x3.length : ℝ) := by
        rw [eighTopValRank1]
        calc ∑ c ∈ Finset.range x3.length, Complex.normSq
              (mtcpcaC itc (x3.getD c []).length
                (fun t => coeffAt nfft tap ((x3.getD c []).getD t []) j))
            ≤ ∑ _c ∈ Finset.range x3.length, (1 : ℝ) := by
              refine Finset.sum_le_sum (fun c _ => ?_)
              rw [Complex.normSq_eq_abs]
              exact pow_le_one₀ (Complex.abs.nonneg _) (abs_mtcpcaC_le_one _ _ _)
          _ = (x3.length : ℝ) := by simp
      have hxpos : (0 : ℝ) < (x3.length : ℝ) := by exact_mod_cast hx
      rw [div_le_one hxpos]
      exact hle
  · rw [if_neg hj]; norm_num

theorem maskFilter_axisMean0_mem (nbins : ℕ) (stack : List (List ℝ)) (fInd : List Bool)
    (hstack : ∀ row ∈ stack, ∀ j : ℕ, 0 ≤ row.getD j 0 ∧ row.getD j 0 ≤ 1)
    (v : ℝ) (hv : v ∈ maskFilter (axisMean0 nbins stack) fInd) : 0 ≤ v ∧ v ≤ 1 := by
  have hv2 := mem_of_mem_maskFilter hv
  simp only [axisMean0, List.mem_map, List.mem_range] at hv2
  obtain ⟨j, _, rfl⟩ := hv2
  apply rmeanL_mem_unit
  intro u hu
  simp only [List.mem_map] at hu
  obtain ⟨row, hrow, rfl⟩ := hu
  exact hstack row hrow j

/-- C6: the phase-locking outputs lie in `[0, 1]` at every returned bin, for
`mtplv` in its 2-D and 3-D branches (PLV mode and ITC mode both, through the
`itc` field of the parameters) and for `mtcpca`. -/
theorem plv_outputs_unit_interval (p : Params) (w : List (List ℝ))
    (x2 : List (List ℝ)) (x3 : List (List (List ℝ))) :
    (∀ v ∈ (mtplv2 p w x2).1, 0 ≤ v ∧ v ≤ 1) ∧
    (∀ row ∈ (mtplv3 p w x3).1, ∀ v ∈ row, 0 ≤ v ∧ v ≤ 1) ∧
    (∀ v ∈ (mtcpca3 p w x3).1, 0 ≤ v ∧ v ≤ 1) := by
  refine ⟨?_, ?_, ?_⟩
  · intro v hv
    refine maskFilter_axisMean0_mem _ _ _ ?_ v hv
    intro row hrow j
    simp only [List.mem_map] at hrow
    obtain ⟨tap, _, rfl⟩ := hrow
    exact mtplv2Tap_getD_mem_unit _ _ _ _ j
  · intro row' hrow' v hv
    simp only [mtplv3, List.mem_map] at hrow'
    obtain ⟨row, hrow, rfl⟩ := hrow'
    simp only [axisMean0Mat, List.mem_map, List.mem_range] at hrow
    obtain ⟨c, _, rfl⟩ := hrow
    have hv2 := mem_of_mem_maskFilter hv
    simp only [axisMean0, List.mem_map, List.mem_range] at hv2
    obtain ⟨j, _, rfl⟩ := hv2
    apply rmeanL_mem_unit
    intro u hu
    simp only [List.map_map, List.mem_map, Function.comp] at hu
    obtain ⟨tap, _, rfl⟩ := hu
    rw [mtplv3Tap, getD_map_cases]
    by_cases hc : c < x3.length
    · rw [dif_pos hc]
      exact mtplv2Tap_getD_mem_unit _ _ _ _ j
    · rw [dif_neg hc]
      norm_num
  · intro v hv
    refine maskFilter_axisMean0_mem _ _ _ ?_ v hv
    intro row hrow j
    simp only [List.mem_map] at hrow
    obtain ⟨tap, _, rfl⟩ := hrow
    exact mtcpcaTap_getD_mem_unit _ _ _ _ j

/-! ## Eigenstructure of the rank-1 CSD (claim C5) -/

theorem csdMatrix_mulVec {n : ℕ} (v wv : Fin n → ℂ) (i : Fin n) :
    (csdMatrix v).mulVec wv i = (∑ j, (starRingEnd ℂ) (v j) * wv j) * v i := by
  simp only [csdMatrix, Matrix.mulVec, Matrix.dotProduct, Matrix.of_apply]
  rw [Finset.sum_mul]
  exact Finset.sum_congr rfl (fun j _ => by ring)

theorem sum_conj_mul_self {n : ℕ} (v : Fin n → ℂ) :
    ∑ j, (starRingEnd ℂ) (v j) * v j = ((∑ j, Complex.normSq (v j) : ℝ) : ℂ) := by
  push_cast
  exact Finset.sum_congr rfl (fun j _ => by rw [mul_comm, Complex.mul_conj])

/-- C5: for the rank-1 Hermitian matrix `outer(v, conj v)` built by the cPCA
estimators, every eigenvalue is `0` or `‖v‖² = ∑ normSq (v i)` — hence real
and non-negative — `v` itself is an eigenvector for `‖v‖²` (the dominant
eigenpair, `vals[-1]` of the ascending order), and the per-taper per-bin
value of `mtcpca` is the top eigenvalue of its CSD divided by the channel
count, `‖C(:,f)‖² / nchans`. -/
theorem csd_rank1_eigen_contract {n : ℕ} (v wv : Fin n → ℂ) (μ : ℂ)
    (hw : wv ≠ 0) (heig : (csdMatrix v).mulVec wv = μ • wv)
    (itc : Bool) (nfft : ℕ) (tap : List ℝ) (x3 : List (List (List ℝ))) (j : ℕ)
    (hj : j < nfft / 2 + 1) :
    (μ = 0 ∨ μ = ((∑ i, Complex.normSq (v i) : ℝ) : ℂ)) ∧
    μ.im = 0 ∧ 0 ≤ μ.re ∧
    (csdMatrix v).mulVec v = (((∑ i, Complex.normSq (v i) : ℝ) : ℂ)) • v ∧
    (mtcpcaTap itc nfft tap x3).getD j 0 =
      eighTopValRank1 x3.length
        (fun c => mtcpcaC itc (x3.getD c []).length
          (fun t => coeffAt nfft tap ((x3.getD c []).getD t []) j)) / (x3.length : ℝ) := by
  have hSnn : 0 ≤ ∑ i, Complex.normSq (v i) :=
    Finset.sum_nonneg (fun i _ => Complex.normSq_nonneg (v i))
  have hmain : μ = 0 ∨ μ = ((∑ i, Complex.normSq (v i) : ℝ) : ℂ) := by
    by_cases hμ : μ = 0
    · exact Or.inl hμ
    · right
      set c : ℂ := ∑ j2, (starRingEnd ℂ) (v j2) * wv j2 with hc
      have happ : ∀ i, c * v i = μ * wv i := by
        intro i
        have h1 := congrFun heig i
        rw [csdMatrix_mulVec, Pi.smul_apply, smul_eq_mul] at h1
        exact h1
      by_cases hc0 : c = 0
      · exfalso
        apply hw
        funext i
        have h1 := (happ i).symm
        rw [hc0, zero_mul] at h1
        exact (mul_eq_zero.mp h1).resolve_left hμ
      · have hwv : ∀ i, wv i = c / μ * v i := by
          intro i
          rw [div_mul_eq_mul_div, eq_div_iff hμ, mul_comm (wv i) μ]
          exact (happ i).symm
        have hcS : c = c / μ * ((∑ i, Complex.normSq (v i) : ℝ) : ℂ) := by
          conv_lhs => rw [hc]
          calc ∑ j2, (starRingEnd ℂ) (v j2) * wv j2
              = ∑ j2, (starRingEnd ℂ) (v j2) * (c / μ * v j2) :=
                Finset.sum_congr rfl (fun j2 _ => by rw [hwv j2])
            _ = c / μ * ∑ j2, (starRingEnd ℂ) (v j2) * v j2 := by
                rw [Finset.mul_sum]
                exact Finset.sum_congr rfl (fun j2 _ => by ring)
            _ = c / μ * ((∑ i, Complex.normSq (v i) : ℝ) : ℂ) := by
                rw [sum_conj_mul_self]
        have hmu : c * μ = c * ((∑ i, Complex.normSq (v i) : ℝ) : ℂ) := by
          calc c * μ = (c / μ * ((∑ i, Complex.normSq (v i) : ℝ) : ℂ)) * μ := by
                conv_lhs => rw [hcS]
            _ = c * ((∑ i, Complex.normSq (v i) : ℝ) : ℂ) := by
                field_simp
        exact mul_left_cancel₀ hc0 hmu
  refine ⟨hmain, ?_, ?_, ?_, ?_⟩
  · rcases hmain with h | h <;> simp [h]
  · rcases hmain with h | h <;> simp [h, hSnn]
  · funext i
    rw [csdMatrix_mulVec, sum_conj_mul_self]
    simp [mul_comm]
  · rw [mtcpcaTap, getD_range_map, if_pos hj]

/-- Witness for `csd_rank1_eigen_contract`: the 1×1 case `v = wv = (1)`,
`μ = 1`, with the trivial taper/recording instance. -/
theorem csd_rank1_eigen_contract_witness :
    ((1 : ℂ) = 0 ∨ (1 : ℂ) = ((∑ i, Complex.normSq ((fun _ : Fin 1 => (1 : ℂ)) i) : ℝ) : ℂ)) ∧
    (1 : ℂ).im = 0 ∧ 0 ≤ (1 : ℂ).re ∧
    (csdMatrix (fun _ : Fin 1 => (1 : ℂ))).mulVec (fun _ : Fin 1 => (1 : ℂ)) =
      (((∑ i, Complex.normSq ((fun _ : Fin 1 => (1 : ℂ)) i) : ℝ) : ℂ)) •
        (fun _ : Fin 1 => (1 : ℂ)) ∧
    (mtcpcaTap false 0 [] []).getD 0 0 =
      eighTopValRank1 (List.length ([] : List (List (List ℝ))))
        (fun c => mtcpcaC false (([] : List (List (List ℝ))).getD c []).length
          (fun t => coeffAt 0 [] ((([] : List (List (List ℝ))).getD c []).getD t []) 0)) /
        ((List.length ([] : List (List (List ℝ)))) : ℝ) :=
  csd_rank1_eigen_contract (fun _ : Fin 1 => (1 : ℂ)) (fun _ : Fin 1 => (1 : ℂ)) 1
    (fun h => one_ne_zero (congrFun h 0))
    (by
      funext i
      simp [csdMatrix, Matrix.mulVec, Matrix.dotProduct])
    false 0 [] [] 0 (by norm_num)

/-! ## Rank dispatch and the single-channel case (claims C4, C10) -/

theorem mtcpcaTap_single_channel (nfft : ℕ) (tap : List ℝ) (ch : List (List ℝ)) :
    mtcpcaTap false nfft tap [ch] = mtplv2Tap false nfft tap ch := by
  rw [mtcpcaTap, mtplv2Tap]
  refine List.map_congr_left (fun j _ => ?_)
  simp [eighTopValRank1, mtcpcaC, plvBinPLV, Complex.normSq_eq_abs]

theorem squeeze3_channel_one (x : List (List (List ℝ)))
    (h1 : x.length = 1) (h2 : (x.headD []).length ≠ 1)
    (h3 : ((x.headD []).headD []).length ≠ 1) :
    squeeze3 x = NpSqueezed.d2 (x.headD []) := by
  rw [squeeze3, if_pos h1, if_neg h2, if_neg h3]

/-- C4 amended: `mtcpca` cannot process a 1-channel recording at all —
squeeze reduces the 3-D array with channel axis 1 to 2-D and `mtcpca`'s
3-D-only dispatch takes the shape-error branch while `mtplv` processes the
same input in its 2-D branch — and the claimed numerical identity holds at
the per-taper level in PLV mode, where the cross-spectral matrix is 1×1:
the `mtcpca` row on the singleton channel list equals the `mtplv` PLV row
of that channel. -/
theorem mtcpca_single_channel_amended (p : Params) (w : List (List ℝ))
    (x : List (List (List ℝ))) (nfft : ℕ) (tap : List ℝ) (ch : List (List ℝ))
    (h1 : x.length = 1) (h2 : (x.headD []).length ≠ 1)
    (h3 : ((x.headD []).headD []).length ≠ 1) :
    mtcpcaFull p w x = MtOut.shapeErr ∧
    mtplvFull p w x =
      MtOut.arr1 (mtplv2 p w (x.headD [])).1 (mtplv2 p w (x.headD [])).2 ∧
    mtcpcaTap false nfft tap [ch] = mtplv2Tap false nfft tap ch := by
  have hsq := squeeze3_channel_one x h1 h2 h3
  exact ⟨by simp only [mtcpcaFull, hsq], by simp only [mtplvFull, hsq],
    mtcpcaTap_single_channel nfft tap ch⟩

/-- Witness for `mtcpca_single_channel_amended` at the concrete 1-channel
recording `[[[1,0],[0,1]]]`. -/
theorem mtcpca_single_channel_amended_witness :
    mtcpcaFull ⟨2, 0, 1, false, none⟩ [[1, 1]] [[[1, 0], [0, 1]]] = MtOut.shapeErr ∧
    mtplvFull ⟨2, 0, 1, false, none⟩ [[1, 1]] [[[1, 0], [0, 1]]] =
      MtOut.arr1
        (mtplv2 ⟨2, 0, 1, false, none⟩ [[1, 1]] (([[[1, 0], [0, 1]]] :
          List (List (List ℝ))).headD [])).1
        (mtplv2 ⟨2, 0, 1, false, none⟩ [[1, 1]] (([[[1, 0], [0, 1]]] :
          List (List (List ℝ))).headD [])).2 ∧
    mtcpcaTap false 0 [] [[]] = mtplv2Tap false 0 [] [] :=
  mtcpca_single_channel_amended ⟨2, 0, 1, false, none⟩ [[1, 1]] [[[1, 0], [0, 1]]]
    0 [] [] rfl (by norm_num) (by norm_num)

/-- C4 counterexample: on the concrete 1-channel recording
`[[[1,0],[0,1]]]` (1 channel, 2 trials, 2 samples), `mtcpca` aborts with
the shape error while `mtplv` returns values, so the cPCA estimate does not
equal the per-channel estimate on this single-channel input. -/
theorem mtcpca_single_channel_counterexample :
    mtcpcaFull ⟨2, 0, 1, false, none⟩ [[1, 1]] [[[1, 0], [0, 1]]] = MtOut.shapeErr ∧
    mtplvFull ⟨2, 0, 1, false, none⟩ [[1, 1]] [[[1, 0], [0, 1]]] =
      MtOut.arr1 (mtplv2 ⟨2, 0, 1, false, none⟩ [[1, 1]] [[1, 0], [0, 1]]).1
        (mtplv2 ⟨2, 0, 1, false, none⟩ [[1, 1]] [[1, 0], [0, 1]]).2 := by
  have hsq : squeeze3 [[[1, 0], [0, 1]]] =
      NpSqueezed.d2 [[1, 0], [0, 1]] :=
    squeeze3_channel_one _ rfl (by norm_num) (by norm_num)
  exact ⟨by simp only [mtcpcaFull, hsq], by simp only [mtplvFull, hsq]⟩

/-- C10 amended: every estimator squeezes the input before dispatching on
its rank, so a 3-D input whose channel axis has length 1 — provided the
trial and time axes are not also singletons — is processed by the
per-channel estimators as 2-D (trials x time) single-channel data, and
drives the 3-D-only cPCA estimators into their shape-error branch.  When
the trial or time axis is also of length 1, squeeze removes it too and the
per-channel estimators reject the input as well (the counterexample), so
the two provisos are necessary. -/
theorem squeeze_dispatch_amended (p : Params) (w : List (List ℝ))
    (x : List (List (List ℝ)))
    (h1 : x.length = 1) (h2 : (x.headD []).length ≠ 1)
    (h3 : ((x.headD []).headD []).length ≠ 1) :
    squeeze3 x = NpSqueezed.d2 (x.headD []) ∧
    mtplvFull p w x =
      MtOut.arr1 (mtplv2 p w (x.headD [])).1 (mtplv2 p w (x.headD [])).2 ∧
    mtcpcaFull p w x = MtOut.shapeErr := by
  have hsq := squeeze3_channel_one x h1 h2 h3
  exact ⟨hsq, by simp only [mtplvFull, hsq], by simp only [mtcpcaFull, hsq]⟩

/-- Witness for `squeeze_dispatch_amended` at the concrete input
`[[[0,0],[1,1]]]` (1 channel, 2 trials, 2 samples). -/
theorem squeeze_dispatch_amended_witness :
    squeeze3 [[[0, 0], [1, 1]]] = NpSqueezed.d2 (([[[0, 0], [1, 1]]] :
      List (List (List ℝ))).headD []) ∧
    mtplvFull ⟨2, 0, 1, false, none⟩ [[1, 1]] [[[0, 0], [1, 1]]] =
      MtOut.arr1
        (mtplv2 ⟨2, 0, 1, false, none⟩ [[1, 1]] (([[[0, 0], [1, 1]]] :
          List (List (List ℝ))).headD [])).1
        (mtplv2 ⟨2, 0, 1, false, none⟩ [[1, 1]] (([[[0, 0], [1, 1]]] :
          List (List (List ℝ))).headD [])).2 ∧
    mtcpcaFull ⟨2, 0, 1, false, none⟩ [[1, 1]] [[[0, 0], [1, 1]]] = MtOut.shapeErr :=
  squeeze_dispatch_amended ⟨2, 0, 1, false, none⟩ [[1, 1]] [[[0, 0], [1, 1]]]
    rfl (by norm_num) (by norm_num)

/-- C10 counterexample: the 3-D input `[[[0,0]]]` has channel axis 1 but
also trial axis 1; squeeze reduces it to 1-D, so the per-channel estimator
does NOT process it as 2-D (trials x time) data — it takes the shape-error
branch, like the cPCA estimator. -/
theorem squeeze_dispatch_counterexample :
    mtplvFull ⟨2, 0, 1, false, none⟩ [[1, 1]] [[[0, 0]]] = MtOut.shapeErr ∧
    mtcpcaFull ⟨2, 0, 1, false, none⟩ [[1, 1]] [[[0, 0]]] = MtOut.shapeErr := by
  have hsq : squeeze3 [[[0, 0]]] = NpSqueezed.d1 [0, 0] := by
    rw [squeeze3]
    norm_num
  exact ⟨by simp only [mtplvFull, hsq], by simp only [mtcpcaFull, hsq]⟩

/-! ## Masking stage (claim C1): where each estimator applies the passband
mask, and why `mtcpca_all`'s early masking is numerically harmless -/

theorem range_map_getD {α β : Type} (l : List α) (d : α) (f : α → β) :
    (List.range l.length).map (fun i => f (l.getD i d)) = l.map f := by
  apply List.ext_getElem
  · simp
  · intro i h1 h2
    have hi : i < l.length := by simpa using h1
    simp only [List.getElem_map, List.getElem_range]
    rw [List.getD_eq_getElem _ _ hi]

theorem axisMean0_maps {α β : Type} (ks : List β) (l : List α) (h : β → α → ℝ) :
    axisMean0 l.length (ks.map fun k => l.map (h k)) =
      l.map fun a => rmeanL (ks.map fun k => h k a) := by
  apply List.ext_getElem
  · simp [axisMean0]
  · intro i h1 h2
    have hi : i < l.length := by simpa [axisMean0] using h1
    simp only [axisMean0, List.getElem_map, List.getElem_range, List.map_map]
    congr 1
    refine List.map_congr_left (fun k _ => ?_)
    simp only [Function.comp_apply]
    rw [List.getD_eq_getElem _ _ (by simpa using hi), List.getElem_map]

theorem axisMean0_range_maps {β : Type} (ks : List β) (n : ℕ) (h : β → ℕ → ℝ) :
    axisMean0 n (ks.map fun k => (List.range n).map (h k)) =
      (List.range n).map fun a => rmeanL (ks.map fun k => h k a) := by
  have h1 := axisMean0_maps ks (List.range n) h
  simpa using h1

theorem maskFilter_range_lt {n : ℕ} {m : List Bool} {j : ℕ}
    (hj : j ∈ maskFilter (List.range n) m) : j < n :=
  List.mem_range.mp (mem_of_mem_maskFilter hj)

theorem masked_rfft_getD (nfft : ℕ) (fInd : List Bool) (v : List ℝ) (fi : ℕ)
    (hfi : fi < (maskFilter (List.range (nfft / 2 + 1)) fInd).length) :
    (maskFilter (rfft nfft v) fInd).getD fi 0 =
      (rfft nfft v).getD ((maskFilter (List.range (nfft / 2 + 1)) fInd).getD fi 0) 0 := by
  have hj : (maskFilter (List.range (nfft / 2 + 1)) fInd).getD fi 0 < nfft / 2 + 1 := by
    apply maskFilter_range_lt (m := fInd)
    rw [List.getD_eq_getElem _ _ hfi]
    exact List.getElem_mem _
  conv_lhs => rw [rfft, maskFilter_map]
  rw [List.getD_eq_getElem _ _ (by simpa using hfi), List.getElem_map]
  conv_rhs => rw [rfft]
  rw [getD_range_map, if_pos hj, List.getD_eq_getElem _ _ hfi]

/-- One taper of `mtcpca_all`'s spectrum (computed on the transform masked
right after the FFT) equals the passband-masked `mtcspec` taper row
(masked at the very end): the mask commutes with the per-bin pipeline. -/
theorem mtcpcaAllSpectrumTap_eq (nfft : ℕ) (fInd : List Bool) (tap : List ℝ)
    (x3 : List (List (List ℝ))) :
    mtcpcaAllSpectrumTap nfft fInd tap x3 = maskFilter (mtcspecTap nfft tap x3) fInd := by
  have hmask : maskFilter (mtcspecTap nfft tap x3) fInd =
      (maskFilter (List.range (nfft / 2 + 1)) fInd).map
        (fun j => eighTopValRank1 x3.length
          (fun c => cmeanF (x3.getD c []).length
            (fun t => coeffAt nfft tap ((x3.getD c []).getD t []) j)) / (x3.length : ℝ)) := by
    rw [mtcspecTap, maskFilter_map]
  rw [hmask, mtcpcaAllSpectrumTap,
    ← range_map_getD (maskFilter (List.range (nfft / 2 + 1)) fInd) 0
      (fun j => eighTopValRank1 x3.length
        (fun c => cmeanF (x3.getD c []).length
          (fun t => coeffAt nfft tap ((x3.getD c []).getD t []) j)) / (x3.length : ℝ))]
  refine List.map_congr_left (fun fi hfi => ?_)
  rw [List.mem_range] at hfi
  congr 1
  rw [eighTopValRank1, eighTopValRank1]
  refine Finset.sum_congr rfl (fun c hc => ?_)
  rw [Finset.mem_range] at hc
  congr 1
  rw [mtcpcaAllC, getD_map_cases, dif_pos hc, getD_range_map, if_pos hfi]
  rw [cmeanF, cmeanF]
  have hch : (x3.get ⟨c, hc⟩).length = (x3.getD c []).length := by
    rw [List.getD_eq_getElem _ _ hc]
    simp
  rw [hch]
  congr 1
  refine Finset.sum_congr rfl (fun t _ => ?_)
  rw [masked_rfft_getD nfft fInd _ fi hfi]
  have hget : x3.get ⟨c, hc⟩ = x3.getD c [] := by
    rw [List.getD_eq_getElem _ _ hc]
    simp
  rw [hget]
  rfl

/-- C1 (amended): the taper-averaged spectrum of `mtcpca_all` — whose mask
is applied right after the transform — equals the `mtcspec` output, which
masks at the very end; and `mtphase`, which masks each per-taper array
before the taper average, equals masking after the taper average.  Both
early maskings are numerically equivalent to masking at the very end. -/
theorem mask_stage_equivalence (p : Params) (w : List (List ℝ))
    (x3 : List (List (List ℝ))) :
    mtcpcaAllSpectrum p w x3 = (mtcspec3 p w x3).1 ∧
    (mtphase3 p w x3).1 =
      (axisMean0Mat x3.length
          (nfftOf ((x3.headD []).headD []).length p.nfftOpt / 2 + 1)
          (w.map fun tap =>
            x3.map fun ch =>
              mtphaseTapRow (nfftOf ((x3.headD []).headD []).length p.nfftOpt) tap ch)).map
        (fun row => maskFilter row
          (fIndList (nfftOf ((x3.headD []).headD []).length p.nfftOpt) p.Fs p.fLo p.fHi)) := by
  set nfft := nfftOf ((x3.headD []).headD []).length p.nfftOpt with hnfft
  set fInd := fIndList nfft p.Fs p.fLo p.fHi with hfInd
  set selIdx := maskFilter (List.range (nfft / 2 + 1)) fInd with hsel
  constructor
  · -- spectrum path
    rw [mtcpcaAllSpectrum, mtcspec3]
    simp only [← hnfft, ← hfInd, ← hsel]
    have hrows : (w.map fun tap => mtcpcaAllSpectrumTap nfft fInd tap x3) =
        w.map fun tap => selIdx.map (fun j => eighTopValRank1 x3.length
          (fun c => cmeanF (x3.getD c []).length
            (fun t => coeffAt nfft tap ((x3.getD c []).getD t []) j)) / (x3.length : ℝ)) := by
      refine List.map_congr_left (fun tap _ => ?_)
      rw [mtcpcaAllSpectrumTap_eq, mtcspecTap, hsel, maskFilter_map]
    rw [hrows, axisMean0_maps]
    have hrhs : (w.map fun tap => mtcspecTap nfft tap x3) =
        w.map fun tap => (List.range (nfft / 2 + 1)).map
          (fun j => eighTopValRank1 x3.length
            (fun c => cmeanF (x3.getD c []).length
              (fun t => coeffAt nfft tap ((x3.getD c []).getD t []) j)) / (x3.length : ℝ)) := by
      refine List.map_congr_left (fun tap _ => ?_)
      rw [mtcspecTap]
    rw [hrhs, axisMean0_range_maps, maskFilter_map, ← hsel]
  · -- phase path
    rw [mtphase3]
    simp only [← hnfft, ← hfInd, ← hsel]
    rw [axisMean0Mat, axisMean0Mat, List.map_map]
    refine List.map_congr_left (fun c hc => ?_)
    rw [List.mem_range] at hc
    simp only [Function.comp_apply]
    have hmrows : ((w.map fun tap => x3.map fun ch =>
        maskFilter (mtphaseTapRow nfft tap ch) fInd).map fun arr => arr.getD c []) =
        w.map fun tap => selIdx.map
          (fun j => Complex.arg (cmeanF (x3.getD c []).length
            (fun t => coeffAt nfft tap ((x3.getD c []).getD t []) j))) := by
      rw [List.map_map]
      refine List.map_congr_left (fun tap _ => ?_)
      simp only [Function.comp_apply]
      rw [getD_map_cases, dif_pos hc]
      have hget : x3.get ⟨c, hc⟩ = x3.getD c [] := by
        rw [List.getD_eq_getElem _ _ hc]
        simp
      rw [hget, mtphaseTapRow, hsel, maskFilter_map]
    have hfrows : ((w.map fun tap => x3.map fun ch =>
        mtphaseTapRow nfft tap ch).map fun arr => arr.getD c []) =
        w.map fun tap => (List.range (nfft / 2 + 1)).map
          (fun j => Complex.arg (cmeanF (x3.getD c []).length
            (fun t => coeffAt nfft tap ((x3.getD c []).getD t []) j))) := by
      rw [List.map_map]
      refine List.map_congr_left (fun tap _ => ?_)
      simp only [Function.comp_apply]
      rw [getD_map_cases, dif_pos hc]
      have hget : x3.get ⟨c, hc⟩ = x3.getD c [] := by
        rw [List.getD_eq_getElem _ _ hc]
        simp
      rw [hget, mtphaseTapRow]
    rw [hmrows, hfrows, axisMean0_maps, axisMean0_range_maps, maskFilter_map, ← hsel]

/-- C1 counterexample: with `nfft = 2`, `Fs = 2` and passband `[0, 1/2]`
(which keeps one of the two non-negative bins), the per-channel
trial-aggregate row computed by `mtcpca_all` has a single entry: the trial
aggregation of `mtcpca_all` runs on the already-masked transform, not on
the full `nfft/2 + 1 = 2` bins, refuting the claim that masking happens
only after trial aggregation in every estimator. -/
theorem mtcpcaAll_mask_stage_counterexample :
    ((mtcpcaAllC 2 (fIndList 2 2 0 (1 / 2)) [1, 1]
        [[[1, 0], [1, 0]]]).getD 0 []).length = 1 ∧
    (1 : ℕ) ≠ 2 / 2 + 1 := by
  have hf : fIndList 2 2 0 (1 / 2) = [true, false] := by
    have h1 : freqFullAxis 2 2 = [0, 1] := by
      norm_num [freqFullAxis, fftfreq, maxIdx, List.range_succ]
    rw [fIndList, h1]
    norm_num
  constructor
  · rw [hf]
    rfl
  · decide

/-! ## The `mtspec` spectrum formula (claim C2) -/

theorem coeffAt_pulse (a : ℝ) (j : ℕ) (hj : j < 2) :
    coeffAt 2 [1, 1] [a, 0] j = (a : ℂ) := by
  rw [coeffAt]
  have hz : List.zipWith (· * ·) [(1 : ℝ), 1] [a, 0] = [a, 0] := by norm_num
  rw [hz, rfft, getD_range_map, if_pos (by omega : j < 2 / 2 + 1)]
  norm_num [Finset.sum_range_succ]

theorem mtspec_cex_S_entry (j : ℕ) (hj : j < 2) :
    Complex.abs (cmeanF ([[(1 : ℝ), 0], [-1, 0]] : List (List ℝ)).length
      fun t => coeffAt 2 [1, 1] ([[(1 : ℝ), 0], [-1, 0]].getD t []) j) = 0 := by
  rw [cmeanF]
  norm_num [Finset.sum_range_succ, List.getD, coeffAt_pulse 1 j hj, coeffAt_pulse (-1) j hj]

theorem mtspec_cex_specVersion_entry (j : ℕ) (hj : j < 2) :
    rmeanF ([[(1 : ℝ), 0], [-1, 0]] : List (List ℝ)).length
      (fun t => Complex.abs (coeffAt 2 [1, 1] ([[(1 : ℝ), 0], [-1, 0]].getD t []) j)) = 1 := by
  rw [rmeanF]
  norm_num [Finset.sum_range_succ, List.getD, coeffAt_pulse 1 j hj, coeffAt_pulse (-1) j hj]

/-- C2 counterexample: on the two-trial recording `[[1,0], [-1,0]]` (one
taper `[1,1]`, `Fs = 2`, passband `[0,1]`), `mtspec` returns the spectrum
`[0, 0]` — the magnitude of the coherent trial mean, which cancels — while
the spec's formula `S = mean over trials of abs(x)` gives `[1, 1]`. -/
theorem mtspec_S_counterexample :
    (mtspec2 ⟨2, 0, 1, false, none⟩ [[1, 1]] (fun _ _ _ => 0) [[1, 0], [-1, 0]]).1 = [0, 0] ∧
    mtspec2SSpecVersion ⟨2, 0, 1, false, none⟩ [[1, 1]] [[1, 0], [-1, 0]] = [1, 1] ∧
    ([0, 0] : List ℝ) ≠ [1, 1] := by
  have hclog : Nat.clog 2 2 = 1 := Nat.clog_eq_one (by norm_num) (by norm_num)
  have hn : nfftOf 2 none = 2 := by rw [nfftOf, nfftDefault, hclog]; norm_num
  have hfa : freqFullAxis 2 2 = [0, 1] := by
    norm_num [freqFullAxis, fftfreq, maxIdx, List.range_succ]
  have hf : fIndList 2 2 0 1 = [true, true] := by
    rw [fIndList, hfa]; norm_num
  have hSrow : mtspec2STap 2 [1, 1] [[(1 : ℝ), 0], [-1, 0]] = [0, 0] := by
    rw [mtspec2STap]
    have hr : List.range (2 / 2 + 1) = [0, 1] := rfl
    rw [hr]
    simp only [List.map_cons, List.map_nil]
    rw [mtspec_cex_S_entry 0 (by norm_num), mtspec_cex_S_entry 1 (by norm_num)]
  have hSVrow : mtspec2STapSpecVersion 2 [1, 1] [[(1 : ℝ), 0], [-1, 0]] = [1, 1] := by
    rw [mtspec2STapSpecVersion]
    have hr : List.range (2 / 2 + 1) = [0, 1] := rfl
    rw [hr]
    simp only [List.map_cons, List.map_nil]
    rw [mtspec_cex_specVersion_entry 0 (by norm_num),
      mtspec_cex_specVersion_entry 1 (by norm_num)]
  have hax : ∀ row : List ℝ, axisMean0 2 [row] = [row.getD 0 0, row.getD 1 0] := by
    intro row
    rw [axisMean0]
    have hr : List.range 2 = [0, 1] := rfl
    rw [hr]
    simp [rmeanL]
  refine ⟨?_, ?_, by norm_num⟩
  · show maskFilter (axisMean0
      (nfftOf ([[(1 : ℝ), 0], [-1, 0]].headD []).length none / 2 + 1)
      ([[1, 1]].map fun tap =>
        mtspec2STap (nfftOf ([[(1 : ℝ), 0], [-1, 0]].headD []).length none) tap
          [[(1 : ℝ), 0], [-1, 0]]))
      (fIndList (nfftOf ([[(1 : ℝ), 0], [-1, 0]].headD []).length none) 2 0 1) = [0, 0]
    have hlen : ([[(1 : ℝ), 0], [-1, 0]].headD []).length = 2 := rfl
    rw [hlen, hn, hf]
    simp only [List.map_cons, List.map_nil, hSrow]
    rw [show (2 / 2 + 1 : ℕ) = 2 from rfl, hax]
    norm_num [List.getD, maskFilter]
  · show maskFilter (axisMean0
      (nfftOf ([[(1 : ℝ), 0], [-1, 0]].headD []).length none / 2 + 1)
      ([[1, 1]].map fun tap =>
        mtspec2STapSpecVersion (nfftOf ([[(1 : ℝ), 0], [-1, 0]].headD []).length none) tap
          [[(1 : ℝ), 0], [-1, 0]]))
      (fIndList (nfftOf ([[(1 : ℝ), 0], [-1, 0]].headD []).length none) 2 0 1) = [1, 1]
    have hlen : ([[(1 : ℝ), 0], [-1, 0]].headD []).length = 2 := rfl
    rw [hlen, hn, hf]
    simp only [List.map_cons, List.map_nil, hSVrow]
    rw [show (2 / 2 + 1 : ℕ) = 2 from rfl, hax]
    norm_num [List.getD, maskFilter]

/-- C2 (amended): in `mtspec` the per-taper spectrum is the magnitude of
the coherent trial mean, `S = abs(mean_trial(x))`, and the noise floor is
`N = abs(mean_trial(x * exp(i*theta)))` with the externally drawn random
phases; each is averaged across tapers and passband-masked before being
returned.  (The claim had the magnitude inside the trial mean; the code
takes it after the trial mean, which the counterexample separates.) -/
theorem mtspec_formula_amended (p : Params) (w : List (List ℝ))
    (ph : ℕ → ℕ → ℕ → ℝ) (x2 : List (List ℝ)) :
    (mtspec2 p w ph x2).1 =
      maskFilter ((List.range (nfftOf (x2.headD []).length p.nfftOpt / 2 + 1)).map fun j =>
        rmeanL (w.map fun tap => Complex.abs (cmeanF x2.length
          fun t => coeffAt (nfftOf (x2.headD []).length p.nfftOpt) tap (x2.getD t []) j)))
        (fIndList (nfftOf (x2.headD []).length p.nfftOpt) p.Fs p.fLo p.fHi) ∧
    (mtspec2 p w ph x2).2.1 =
      maskFilter ((List.range (nfftOf (x2.headD []).length p.nfftOpt / 2 + 1)).map fun j =>
        rmeanL ((List.range w.length).map fun k => Complex.abs (cmeanF x2.length
          fun t => coeffAt (nfftOf (x2.headD []).length p.nfftOpt) (w.getD k [])
              (x2.getD t []) j *
            Complex.exp (Complex.I * ((ph k t j : ℝ) : ℂ)))))
        (fIndList (nfftOf (x2.headD []).length p.nfftOpt) p.Fs p.fLo p.fHi) := by
  constructor
  · show maskFilter (axisMean0 (nfftOf (x2.headD []).length p.nfftOpt / 2 + 1)
      (w.map fun tap =>
        mtspec2STap (nfftOf (x2.headD []).length p.nfftOpt) tap x2))
      (fIndList (nfftOf (x2.headD []).length p.nfftOpt) p.Fs p.fLo p.fHi) = _
    simp only [mtspec2STap]
    rw [axisMean0_range_maps]
  · show maskFilter (axisMean0 (nfftOf (x2.headD []).length p.nfftOpt / 2 + 1)
      ((List.range w.length).map fun k =>
        mtspec2NTap (nfftOf (x2.headD []).length p.nfftOpt) (w.getD k []) (ph k) x2))
      (fIndList (nfftOf (x2.headD []).length p.nfftOpt) p.Fs p.fLo p.fHi) = _
    simp only [mtspec2NTap]
    rw [axisMean0_range_maps]

/-! ## Eigenvector normalization conventions (claim C3) -/

/-- C3 (amended): `mtcpca_all` stores the dominant eigenvector exactly as
the eigendecomposition returns it — unit Euclidean norm, with no further
normalization — while the reconstruction path of `mtcpca_timeDomain`
divides the dominant eigenvector by the sum of the absolute values of its
entries, so its weights have unit absolute sum.  The two conventions are
distinct, and the `mtcpca_all` one is not a division by the sum of the
entries (the counterexample exhibits the difference). -/
theorem eigvec_conventions_amended (nch : ℕ) (v : ℕ → ℂ)
    (hpos : 0 < eighTopValRank1 nch v) :
    mtcpcaAllStoredVec nch v = eighTopVecRank1 nch v ∧
    (∑ c ∈ Finset.range nch, Complex.abs (eighTopVecRank1 nch v c) ^ 2) = 1 ∧
    (∑ c ∈ Finset.range nch, Complex.abs (timeDomainCwts nch v c)) = 1 := by
  have hsq : 0 < Real.sqrt (eighTopValRank1 nch v) := Real.sqrt_pos.mpr hpos
  refine ⟨rfl, ?_, ?_⟩
  · have hterm : ∀ c ∈ Finset.range nch, Complex.abs (eighTopVecRank1 nch v c) ^ 2 =
        Complex.normSq (v c) / eighTopValRank1 nch v := by
      intro c _
      rw [eighTopVecRank1, map_div₀, Complex.abs_ofReal,
        abs_of_nonneg (Real.sqrt_nonneg _), div_pow, Real.sq_sqrt (le_of_lt hpos),
        Complex.sq_abs]
    rw [Finset.sum_congr rfl hterm, ← Finset.sum_div]
    exact div_self (ne_of_gt hpos)
  · have hex : ∃ c ∈ Finset.range nch, 0 < Complex.normSq (v c) := by
      by_contra hno
      push_neg at hno
      have hzero : eighTopValRank1 nch v = 0 := by
        rw [eighTopValRank1]
        apply le_antisymm
        · apply Finset.sum_nonpos
          intro c hc
          exact le_of_not_lt (fun hlt => absurd hlt (not_lt_of_le (hno c hc)))
        · exact Finset.sum_nonneg (fun c _ => Complex.normSq_nonneg _)
      exact absurd hzero (ne_of_gt hpos)
    have hA : 0 < ∑ i ∈ Finset.range nch, Complex.abs (eighTopVecRank1 nch v i) := by
      obtain ⟨c0, hc0mem, hc0⟩ := hex
      apply Finset.sum_pos' (fun i _ => Complex.abs.nonneg _)
      refine ⟨c0, hc0mem, ?_⟩
      rw [eighTopVecRank1, map_div₀, Complex.abs_ofReal,
        abs_of_nonneg (Real.sqrt_nonneg _)]
      apply div_pos _ hsq
      have hne : v c0 ≠ 0 := by
        intro h
        rw [h] at hc0
        simp at hc0
      exact Complex.abs.pos hne
    have hterm : ∀ c ∈ Finset.range nch, Complex.abs (timeDomainCwts nch v c) =
        Complex.abs (eighTopVecRank1 nch v c) /
          (∑ i ∈ Finset.range nch, Complex.abs (eighTopVecRank1 nch v i)) := by
      intro c _
      rw [timeDomainCwts, map_div₀, Complex.abs_ofReal, abs_of_nonneg (le_of_lt hA)]
    rw [Finset.sum_congr rfl hterm, ← Finset.sum_div]
    exact div_self (ne_of_gt hA)

/-- Witness for `eigvec_conventions_amended`: the single-channel statistic
vector `(1)`. -/
theorem eigvec_conventions_amended_witness :
    mtcpcaAllStoredVec 1 (fun _ => 1) = eighTopVecRank1 1 (fun _ => 1) ∧
    (∑ c ∈ Finset.range 1, Complex.abs (eighTopVecRank1 1 (fun _ => 1) c) ^ 2) = 1 ∧
    (∑ c ∈ Finset.range 1, Complex.abs (timeDomainCwts 1 (fun _ => 1) c)) = 1 :=
  eigvec_conventions_amended 1 (fun _ => 1)
    (by norm_num [eighTopValRank1, Complex.normSq_apply])

/-- C3 counterexample: at the channel-statistic vector `(3, 4)` the
eigenvector stored by `mtcpca_all` is `(3/5, 4/5)` (the raw unit-norm
`eigh` output), whose first entry `3/5` differs from the first entry `3/7`
of the sum-of-entries normalization the claim asserts. -/
theorem mtcpcaAll_eigvec_counterexample :
    mtcpcaAllStoredVec 2 (fun c => if c = 0 then 3 else 4) 0 = ((3 : ℂ) / 5) ∧
    sumEntriesNormalized 2 (mtcpcaAllStoredVec 2 (fun c => if c = 0 then 3 else 4)) 0 =
      ((3 : ℂ) / 7) ∧
    ((3 : ℂ) / 5) ≠ ((3 : ℂ) / 7) := by
  have hval : eighTopValRank1 2 (fun c => if c = 0 then (3 : ℂ) else 4) = 25 := by
    rw [eighTopValRank1, Finset.sum_range_succ, Finset.sum_range_one]
    norm_num [Complex.normSq_apply]
  have hsqrt : Real.sqrt (25 : ℝ) = 5 := by
    rw [show (25 : ℝ) = 5 ^ 2 by norm_num]
    exact Real.sqrt_sq (by norm_num)
  have h0 : mtcpcaAllStoredVec 2 (fun c => if c = 0 then (3 : ℂ) else 4) 0 = (3 : ℂ) / 5 := by
    rw [mtcpcaAllStoredVec, eighTopVecRank1, hval, hsqrt]
    norm_num
  have h1 : mtcpcaAllStoredVec 2 (fun c => if c = 0 then (3 : ℂ) else 4) 1 = (4 : ℂ) / 5 := by
    rw [mtcpcaAllStoredVec, eighTopVecRank1, hval, hsqrt]
    norm_num
  refine ⟨h0, ?_, ?_⟩
  · rw [sumEntriesNormalized, Finset.sum_range_succ, Finset.sum_range_one, h0, h1]
    norm_num
  · intro h
    have h2 : ((3 : ℂ) / 5) * 35 = ((3 : ℂ) / 7) * 35 := by rw [h]
    norm_num at h2

/-! ## Output contracts: what each estimator returns (claim C8)

The positional components of the normal-mode return tuples and the keys of
the bootstrap-mode dictionaries, read off the source's return statements. -/

def mtplv_normalComponents : List String := ["plvtap", "f"]

def mtspec_normalComponents : List String := ["S", "N", "f"]

def mtphase_normalComponents : List String := ["Ph", "f"]

def mtcpca_normalComponents : List String := ["plv", "f"]

def mtcspec_normalComponents : List String := ["cspec", "f"]

def mtcpca_timeDomain_normalComponents : List String := ["y_cpc", "y_pc"]

def mtppc_normalComponents : List String := ["ppc", "f"]

def mtspecraw_normalComponents : List String := ["Sraw", "f"]

def mtpspec_normalComponents : List String := ["pspec", "f"]

def mtcpca_all_normalComponents : List String := ["out", "f"]

def mtplv_bootstrapKeys : List String := ["mtplv", "f"]

def mtspec_bootstrapKeys : List String := ["mtspec", "mtspec_noise", "f"]

def mtphase_bootstrapKeys : List String := ["mtphase", "f"]

def mtcpca_bootstrapKeys : List String := ["mtcplv", "f"]

def mtcspec_bootstrapKeys : List String := ["mtcspec", "f"]

def mtcpca_timeDomain_bootstrapKeys : List String := ["y_cpc", "y_pc"]

def mtppc_bootstrapKeys : List String := ["mtppc", "f"]

def mtspecraw_bootstrapKeys : List String := ["mtspecraw", "f"]

def mtpspec_bootstrapKeys : List String := ["pspec", "f"]

def mtcpca_all_bootstrapKeys : List String := ["spectrum", "plv", "itc", "f"]

/-- C8 counterexample: `mtcpca_timeDomain` returns no frequency axis — its
normal-mode tuple is `(y_cpc, y_pc)` and its bootstrap dictionary has only
the keys `y_cpc` and `y_pc`; in neither mode does `f` appear. -/
theorem timeDomain_returns_no_freq_axis :
    ("f" ∉ mtcpca_timeDomain_normalComponents) ∧
    ("f" ∉ mtcpca_timeDomain_bootstrapKeys) := by
  constructor <;> decide

/-- C8 (amended): every public estimation operation except
`mtcpca_timeDomain` returns the passband-masked frequency axis alongside
its statistics, in normal mode (a tuple element) and in bootstrap mode (the
key `f`); the embedded estimators indeed pair their statistic with the
masked axis of `_get_freq_vector`.  `mtcpca_timeDomain` alone returns only
the two waveforms. -/
theorem freq_axis_in_outputs_amended (p : Params) (w : List (List ℝ))
    (ph : ℕ → ℕ → ℕ → ℝ) (x2 : List (List ℝ)) (x3 : List (List (List ℝ))) :
    ("f" ∈ mtplv_normalComponents ∧ "f" ∈ mtplv_bootstrapKeys) ∧
    ("f" ∈ mtspec_normalComponents ∧ "f" ∈ mtspec_bootstrapKeys) ∧
    ("f" ∈ mtphase_normalComponents ∧ "f" ∈ mtphase_bootstrapKeys) ∧
    ("f" ∈ mtcpca_normalComponents ∧ "f" ∈ mtcpca_bootstrapKeys) ∧
    ("f" ∈ mtcspec_normalComponents ∧ "f" ∈ mtcspec_bootstrapKeys) ∧
    ("f" ∈ mtppc_normalComponents ∧ "f" ∈ mtppc_bootstrapKeys) ∧
    ("f" ∈ mtspecraw_normalComponents ∧ "f" ∈ mtspecraw_bootstrapKeys) ∧
    ("f" ∈ mtpspec_normalComponents ∧ "f" ∈ mtpspec_bootstrapKeys) ∧
    ("f" ∈ mtcpca_all_normalComponents ∧ "f" ∈ mtcpca_all_bootstrapKeys) ∧
    ("f" ∉ mtcpca_timeDomain_normalComponents ∧ "f" ∉ mtcpca_timeDomain_bootstrapKeys) ∧
    (mtplv2 p w x2).2 =
      maskedFreqAxis (nfftOf (x2.headD []).length p.nfftOpt) p.Fs p.fLo p.fHi ∧
    (mtplv3 p w x3).2 =
      maskedFreqAxis (nfftOf ((x3.headD []).headD []).length p.nfftOpt) p.Fs p.fLo p.fHi ∧
    (mtspec2 p w ph x2).2.2 =
      maskedFreqAxis (nfftOf (x2.headD []).length p.nfftOpt) p.Fs p.fLo p.fHi ∧
    (mtphase3 p w x3).2 =
      maskedFreqAxis (nfftOf ((x3.headD []).headD []).length p.nfftOpt) p.Fs p.fLo p.fHi ∧
    (mtcpca3 p w x3).2 =
      maskedFreqAxis (nfftOf ((x3.headD []).headD []).length p.nfftOpt) p.Fs p.fLo p.fHi ∧
    (mtcspec3 p w x3).2 =
      maskedFreqAxis (nfftOf ((x3.headD []).headD []).length p.nfftOpt) p.Fs p.fLo p.fHi := by
  refine ⟨⟨?_, ?_⟩, ⟨?_, ?_⟩, ⟨?_, ?_⟩, ⟨?_, ?_⟩, ⟨?_, ?_⟩, ⟨?_, ?_⟩, ⟨?_, ?_⟩,
    ⟨?_, ?_⟩, ⟨?_, ?_⟩, ⟨?_, ?_⟩, rfl, rfl, rfl, rfl, rfl, rfl⟩ <;> decide

/-! ## Zero-magnitude coefficients in the unit normalization (claim C9) -/

open Classical in
/-- Modelled from numpy IEEE semantics at a zero denominator: the unit
normalization `xw / abs(xw)` of a zero coefficient is `0/0 = NaN`, an
undefined value (`none`); every other coefficient normalizes to the defined
value `unitc`. -/
noncomputable def unitcIEEE (z : ℂ) : Option ℂ :=
  if z = 0 then none else some (unitc z)

/-- NaN-propagating addition: defined only when both summands are. -/
def addOptC : Option ℂ → Option ℂ → Option ℂ
  | some a, some b => some (a + b)
  | _, _ => none

/-- NaN-propagating list sum. -/
def sumOptC : List (Option ℂ) → Option ℂ
  | [] => some 0
  | a :: l => addOptC a (sumOptC l)

/-- NaN-propagating per-bin PLV statistic of `mtplv`: the trial mean of the
IEEE unit normalizations, then the squared magnitude; undefined as soon as
one trial's coefficient at the bin is exactly zero, exactly as numpy's NaN
propagates through `mean` and `abs`. -/
noncomputable def plvBinPLVIEEE (n : ℕ) (coeff : ℕ → ℂ) : Option ℝ :=
  (sumOptC ((List.range n).map fun t => unitcIEEE (coeff t))).map
    (fun s => Complex.abs (s / n) ^ 2)

theorem sumOptC_map_some {α : Type} (l : List α) (h : α → ℂ) :
    sumOptC (l.map fun a => some (h a)) = some (l.map h).sum := by
  induction l with
  | nil => rfl
  | cons a l ih =>
    rw [List.map_cons, sumOptC, ih, List.map_cons, List.sum_cons]
    rfl

theorem listSum_map_range (n : ℕ) (f : ℕ → ℂ) :
    ((List.range n).map f).sum = ∑ t ∈ Finset.range n, f t := by
  induction n with
  | zero => simp
  | succ n ih =>
    rw [List.range_succ, List.map_append, List.sum_append, Finset.sum_range_succ, ih]
    simp

/-- NaN-tracking per-taper PLV row of `mtplv` (2-D branch, PLV mode): the
full-bin row of `mtplv2Tap` under the IEEE semantics of `unitcIEEE`, with
`none` marking a bin whose value is NaN. -/
noncomputable def mtplv2TapIEEE (nfft : ℕ) (tap : List ℝ) (x2 : List (List ℝ)) :
    List (Option ℝ) :=
  (List.range (nfft / 2 + 1)).map fun j =>
    plvBinPLVIEEE x2.length (fun t => coeffAt nfft tap (x2.getD t []) j)

theorem plvBinPLVIEEE_defined_eq (n : ℕ) (coeff : ℕ → ℂ)
    (hnz : ∀ t, t < n → coeff t ≠ 0) :
    plvBinPLVIEEE n coeff = some (plvBinPLV n coeff) := by
  have hmap : ((List.range n).map fun t => unitcIEEE (coeff t)) =
      (List.range n).map fun t => some (unitc (coeff t)) := by
    refine List.map_congr_left (fun t ht => ?_)
    rw [List.mem_range] at ht
    rw [unitcIEEE, if_neg (hnz t ht)]
  rw [plvBinPLVIEEE, hmap, sumOptC_map_some, Option.map_some']
  rw [plvBinPLV, cmeanF, listSum_map_range]

/-- C9 counterexample: on the two-trial recording `[[0,0], [1,0]]` the
first trial's coefficient at every bin is exactly zero, so the unit
normalization is undefined (NaN) there and the undefined value propagates
silently into the per-taper PLV row: the bin's output is `none`, not a
value produced by any defined policy — while the row is still produced in
full (length 2), so the batch does not abort. -/
theorem zero_coefficient_counterexample :
    (mtplv2TapIEEE 2 [1, 1] [[0, 0], [1, 0]]).getD 0 none = none ∧
    (mtplv2TapIEEE 2 [1, 1] [[0, 0], [1, 0]]).length = 2 := by
  have hz : unitcIEEE 0 = none := by rw [unitcIEEE, if_pos rfl]
  constructor
  · rw [mtplv2TapIEEE, getD_range_map, if_pos (by norm_num : (0 : ℕ) < 2 / 2 + 1)]
    have hc0 : coeffAt 2 [1, 1] (([[(0 : ℝ), 0], [1, 0]] : List (List ℝ)).getD 0 []) 0 = 0 := by
      have h1 : (([[(0 : ℝ), 0], [1, 0]] : List (List ℝ)).getD 0 []) = [0, 0] := rfl
      rw [h1, coeffAt_pulse 0 0 (by norm_num)]
      norm_num
    rw [plvBinPLVIEEE]
    have hr : List.range ([[(0 : ℝ), 0], [1, 0]] : List (List ℝ)).length = [0, 1] := rfl
    rw [hr]
    simp only [List.map_cons, List.map_nil, hc0, hz]
    rfl
  · rw [mtplv2TapIEEE]
    simp

/-- C9 (amended): the code applies no special policy at zero-magnitude
coefficients — the unit normalization produces an undefined (NaN) value
that propagates silently into the affected bin of the per-taper PLV row,
without aborting the batch (the row is produced in full); a bin all of
whose trial coefficients are non-zero is unaffected, and there the IEEE row
agrees with the idealized `mtplv2Tap` statistic. -/
theorem zero_coefficient_policy_amended (nfft : ℕ) (tap : List ℝ)
    (x2 : List (List ℝ)) (j : ℕ) (hj : j < nfft / 2 + 1)
    (hnz : ∀ t, t < x2.length → coeffAt nfft tap (x2.getD t []) j ≠ 0) :
    (mtplv2TapIEEE nfft tap x2).length = (mtplv2Tap false nfft tap x2).length ∧
    (mtplv2TapIEEE nfft tap x2).getD j none =
      some ((mtplv2Tap false nfft tap x2).getD j 0) := by
  constructor
  · rw [mtplv2TapIEEE, mtplv2Tap]
    simp
  · rw [mtplv2TapIEEE, getD_range_map, if_pos hj, mtplv2Tap, getD_range_map, if_pos hj]
    rw [if_neg Bool.false_ne_true]
    exact plvBinPLVIEEE_defined_eq x2.length _ hnz

/-- Witness for `zero_coefficient_policy_amended`: one trial `[1, 0]`, one
taper `[1, 1]`, bin `0`, whose coefficient is `1 ≠ 0`. -/
theorem zero_coefficient_policy_amended_witness :
    (mtplv2TapIEEE 2 [1, 1] [[1, 0]]).length = (mtplv2Tap false 2 [1, 1] [[1, 0]]).length ∧
    (mtplv2TapIEEE 2 [1, 1] [[1, 0]]).getD 0 none =
      some ((mtplv2Tap false 2 [1, 1] [[1, 0]]).getD 0 0) :=
  zero_coefficient_policy_amended 2 [1, 1] [[1, 0]] 0 (by norm_num)
    (by
      intro t ht
      have ht0 : t = 0 := by
        have : ([[(1 : ℝ), 0]] : List (List ℝ)).length = 1 := rfl
        omega
      subst ht0
      have h1 : (([[(1 : ℝ), 0]] : List (List ℝ)).getD 0 []) = [1, 0] := rfl
      rw [h1, coeffAt_pulse 1 0 (by norm_num)]
      norm_num)

end Spectral
